import Mathlib

/-!
Verification of the base2048 codec (`src/lib.rs`).

Strings are modelled as lists of character code points (`List Nat`), byte sequences as
lists of naturals below 256.  Machine integers are naturals with explicit `% 2 ^ w`
wherever the Rust code can wrap; wrapping subtraction on `u32` is written
`(a + 2 ^ 32 - b) % 2 ^ 32`.  Rust panics (out-of-bounds slice indexing) are modelled by
`Except.error ()`; arithmetic follows release-profile (wrapping) semantics.
-/

namespace Base2048

/-- Modelled from the spec: the contents of `ENC_TABLE` (`src/enc_table.src`, a
2048-entry array of characters pulled in by `include!`) are not part of the sources
under `src/`; only its size and type appear in `lib.rs`.  The spec requires a forward
table mapping each group index in `[0, 2047]` to a unique character, injective and
disjoint from the tail alphabet, exactly inverted by the reverse table wherever defined.
We model entry `i` as the character with code point `256 + i` (so all entries lie inside
the reverse table's domain `[0, 4182)` and away from the tail code points `48`–`55`).
Reads at `i ≥ 2048` would panic in Rust; `encodeC` below certifies they never happen. -/
def ENC_TABLE (i : Nat) : Nat := 256 + i

/-- Modelled from the spec: the contents of `DEC_TABLE` (`src/dec_table.src`) are not
part of the sources under `src/`; `lib.rs` declares it as `[u16; 4182]`.  The spec
requires the reverse table to map a character to its group index, with a sentinel value
(`0xFFFF` in the code) for characters not in the primary alphabet, and to be the exact
inverse of the forward table wherever defined.  With `ENC_TABLE` as modelled above this
is the following function on code points `0 ≤ c < 4182`. -/
def DEC_TABLE (c : Nat) : Nat := if 256 ≤ c ∧ c < 2304 then c - 256 else 0xFFFF

/-- Number of entries of `DEC_TABLE` (`pub const DEC_TABLE: &'static [u16; 4182]`).
`DEC_TABLE[c as usize]` panics for a character whose code point is `≥ 4182`. -/
def DEC_TABLE_LEN : Nat := 4182

/-- Code points of `TAIL = &['0', '1', '2', '3', '4', '5', '6', '7']`. -/
def TAIL : List Nat := [48, 49, 50, 51, 52, 53, 54, 55]

/-- Maximum number of bits encoded in a tail character (`pub const TAIL_BITS: u32 = 3`). -/
def TAIL_BITS : Nat := 3

/-- Number of bits encoded per char in the output (`pub const BITS_PER_CHAR: u32 = 11`). -/
def BITS_PER_CHAR : Nat := 11

/-- Left shift of a `u16` value: the result is truncated to 16 bits (Rust discards the
shifted-out bits; the shift amounts appearing in `encode` are all below 16). -/
def shl16 (x k : Nat) : Nat := (x <<< k) % 65536

/-- Bitwise complement on `u16` (`!x`). -/
def not16 (x : Nat) : Nat := 65535 - x % 65536

/-- One iteration of the byte loop of `encode` (src/lib.rs lines 34-50).  The state is
`(ret, stage, remaining)`: the output so far, the `u16` bit accumulator, and the number
of bits it holds.  `byte & ((1 << remaining) - 1)` is written `byte &&& (2 ^ remaining - 1)`
(the shift `1 << remaining` cannot wrap since `remaining ≤ 5` there). -/
def encStep (acc : List Nat × Nat × Nat) (byte : Nat) : List Nat × Nat × Nat :=
  let ret := acc.1
  let stage := acc.2.1
  let remaining := acc.2.2
  -- how many more bits do we need to complete the next character?
  let need := 11 - remaining
  if need ≤ 8 then
    -- if we need a byte or less then take what we need and push it
    let remaining' := 8 - need
    let index := shl16 stage need ||| (byte >>> remaining')
    (ret ++ [ENC_TABLE index], byte &&& (2 ^ remaining' - 1), remaining')
  else
    -- we need more than a byte so just shift it into stage
    (ret, shl16 stage 8 ||| byte, remaining + 8)

/-- The byte loop of `encode`: fold `encStep` over the input from the empty state. -/
def encLoop (bytes : List Nat) : List Nat × Nat × Nat :=
  bytes.foldl encStep ([], 0, 0)

/-- Shallow embedding of `encode` (src/lib.rs lines 29-73).  After the byte loop, a
leftover of `remaining > 0` bits is flushed as a tail character (when
`remaining ≤ TAIL_BITS`) or a primary character, padded with all-one bits:
`stage << padding | !(!0 << padding)`. -/
def encode (bytes : List Nat) : List Nat :=
  let st := encLoop bytes
  let ret := st.1
  let stage := st.2.1
  let remaining := st.2.2
  if remaining > 0 then
    if remaining ≤ TAIL_BITS then
      let padding := TAIL_BITS - remaining
      let index := shl16 stage padding ||| not16 (shl16 65535 padding)
      -- we're adding 1-3 bits so add special tail character
      ret ++ [TAIL.getD index 0]
    else
      let padding := BITS_PER_CHAR - remaining
      let index := shl16 stage padding ||| not16 (shl16 65535 padding)
      -- we're adding > 3 bits no need for a tail since it's not ambigious
      ret ++ [ENC_TABLE index]
  else ret

/-- Checked variant of `encStep`: computes with unbounded naturals and returns `none`
if the `u16` register would overflow (`remaining` out of its documented 0-10 range or a
shift producing 16 or more significant bits) or a table read would be out of bounds
(which would panic in Rust).  On byte inputs it agrees with `encStep` (`encodeC_eq`). -/
def encStepC (acc : List Nat × Nat × Nat) (byte : Nat) : Option (List Nat × Nat × Nat) :=
  let ret := acc.1
  let stage := acc.2.1
  let remaining := acc.2.2
  if remaining ≤ 10 then
    let need := 11 - remaining
    if need ≤ 8 then
      let remaining' := 8 - need
      let index := stage <<< need ||| (byte >>> remaining')
      if stage <<< need < 65536 ∧ index < 2048 then
        some (ret ++ [ENC_TABLE index], byte &&& (2 ^ remaining' - 1), remaining')
      else none
    else
      if stage <<< 8 < 65536 then some (ret, stage <<< 8 ||| byte, remaining + 8) else none
  else none

/-- Checked byte loop: `encLoop` with the bound checks of `encStepC` threaded through. -/
def encLoopC (bytes : List Nat) : Option (List Nat × Nat × Nat) :=
  bytes.foldl (fun acc byte => acc.bind (fun st => encStepC st byte)) (some ([], 0, 0))

/-- Checked variant of `encode`: `none` if any table index is out of bounds or any
16-bit shift overflows; the all-ones padding mask is written directly as `2 ^ padding - 1`. -/
def encodeC (bytes : List Nat) : Option (List Nat) :=
  match encLoopC bytes with
  | none => none
  | some (ret, stage, remaining) =>
    if remaining > 0 then
      if remaining ≤ TAIL_BITS then
        let padding := TAIL_BITS - remaining
        let index := stage <<< padding ||| (2 ^ padding - 1)
        if stage <<< padding < 65536 ∧ index < 8 then some (ret ++ [TAIL.getD index 0])
        else none
      else
        let padding := BITS_PER_CHAR - remaining
        let index := stage <<< padding ||| (2 ^ padding - 1)
        if stage <<< padding < 65536 ∧ index < 2048 then some (ret ++ [ENC_TABLE index])
        else none
    else some ret

/-- Fueled helper for `trailingOnes` (structural recursion on the fuel). -/
def trailingOnesAux : Nat → Nat → Nat
  | 0, _ => 0
  | fuel + 1, n => if n % 2 = 1 then trailingOnesAux fuel (n / 2) + 1 else 0

/-- Count of trailing one bits, modelling `usize::trailing_ones` for arguments below
`2 ^ 32` (in `decode` the argument is a tail index below 8). -/
def trailingOnes (n : Nat) : Nat := trailingOnesAux 32 n

/-- Fueled helper for `flush` (one fuel unit per loop iteration; `remaining` drops by 8
each iteration, so fuel `remaining` is always enough). -/
def flushAux : Nat → List Nat × Nat × Nat → List Nat × Nat × Nat
  | 0, st => st
  | fuel + 1, (ret, stage, remaining) =>
    if 8 ≤ remaining then
      let remaining' := remaining - 8
      flushAux fuel (ret ++ [(stage >>> remaining') % 256], stage &&& (2 ^ remaining' - 1), remaining')
    else (ret, stage, remaining)

/-- The `while remaining >= 8` flush loop of `decode` (src/lib.rs lines 126-131): emit
the top 8 bits of `stage` as a byte (`(stage >> remaining) as u8`) and mask `stage`
down to the remaining low bits (`stage &= (1 << remaining) - 1`). -/
def flush (ret : List Nat) (stage remaining : Nat) : List Nat × Nat × Nat :=
  flushAux remaining (ret, stage, remaining)

/-- The per-character loop of `decode` (src/lib.rs lines 91-132), one recursive step per
character; `rest.isEmpty` plays the role of `chars.peek().is_none()`.  The result is
`Except.error ()` where the Rust code panics (`DEC_TABLE[c as usize]` with a code point
at or beyond the table length), `Except.ok none` where it returns `None`, and otherwise
`Except.ok (some (ret, remaining, stage))`, the state when the loop ends.  The
subtraction `TAIL_BITS - need as u32` wraps in release builds and is modelled as
`(TAIL_BITS + 2 ^ 32 - need) % 2 ^ 32`; the `u32` shift `stage << n_new_bits` is
truncated with `% 2 ^ 32`. -/
def decGo (ret : List Nat) (remaining stage residue : Nat) :
    List Nat → Except Unit (Option (List Nat × Nat × Nat))
  | [] => .ok (some (ret, remaining, stage))
  | c :: rest =>
    if c < DEC_TABLE_LEN then
      -- keep track of the misalignment between byte boundary
      let residue' := (residue + 11) % 8
      if DEC_TABLE c = 0xFFFF then
        if rest.isEmpty then
          match List.findIdx? (fun t => t == c) TAIL with
          | some index =>
            -- so we're at the last character and it's a tail character
            let need := 8 - remaining
            let padding := (TAIL_BITS + 2 ^ 32 - need) % 2 ^ 32
            if trailingOnes index ≥ padding then
              let remaining' := remaining + need
              let stage' := (stage <<< need) % 2 ^ 32 ||| (index >>> padding)
              let fl := flush ret stage' remaining'
              decGo fl.1 fl.2.2 fl.2.1 residue' rest
            else .ok none
          | none => .ok none
        else .ok none
      else
        if rest.isEmpty then
          let n := 11 - residue'
          let remaining' := remaining + n
          let stage' := (stage <<< n) % 2 ^ 32 ||| (DEC_TABLE c >>> residue')
          let fl := flush ret stage' remaining'
          decGo fl.1 fl.2.2 fl.2.1 residue' rest
        else
          let remaining' := remaining + 11
          let stage' := (stage <<< 11) % 2 ^ 32 ||| DEC_TABLE c
          let fl := flush ret stage' remaining'
          decGo fl.1 fl.2.2 fl.2.1 residue' rest
    else .error ()

/-- Shallow embedding of `decode` (src/lib.rs lines 84-142).  After the loop, when
`remaining > 0`, the code appends one final partial byte `(stage >> (8 - remaining)) as u8`. -/
def decode (string : List Nat) : Except Unit (Option (List Nat)) :=
  (decGo [] 0 0 0 string).map (fun r => r.map (fun st =>
    let ret := st.1
    let remaining := st.2.1
    let stage := st.2.2
    if remaining > 0 then ret ++ [(stage >>> (8 - remaining)) % 256] else ret))

/-- Value of a byte list read as a big-endian bit stream (8 bits per entry). -/
def bytesVal : List Nat → Nat
  | [] => 0
  | b :: l => b * 2 ^ (8 * l.length) + bytesVal l

/-- Value of an 11-bit group list read as a big-endian bit stream. -/
def groupsVal : List Nat → Nat
  | [] => 0
  | g :: l => g * 2 ^ (11 * l.length) + groupsVal l

/-! ### Bit-arithmetic lemmas -/

theorem shiftLeft_lor_eq (x y k : Nat) (hy : y < 2 ^ k) : x <<< k ||| y = x * 2 ^ k + y := by
  rw [Nat.shiftLeft_eq, Nat.mul_comm x (2 ^ k), Nat.mul_add_lt_is_or hy]

theorem shl16_eq (x k : Nat) (h : x <<< k < 65536) : shl16 x k = x <<< k :=
  Nat.mod_eq_of_lt h

theorem mask_ones : ∀ p < 16, not16 (shl16 65535 p) = 2 ^ p - 1 := by decide

theorem shiftRight_unpad (a p : Nat) : (a * 2 ^ p + (2 ^ p - 1)) >>> p = a := by
  rw [Nat.shiftRight_eq_div_pow]
  have h2 : 0 < 2 ^ p := Nat.pos_pow_of_pos p (by omega)
  rw [Nat.mul_comm a (2 ^ p), Nat.mul_add_div h2, Nat.div_eq_of_lt (by omega)]
  omega

theorem trailingOnesAux_padded : ∀ p fuel a, p ≤ fuel →
    p ≤ trailingOnesAux fuel (a * 2 ^ p + (2 ^ p - 1)) := by
  intro p
  induction p with
  | zero => intro fuel a h; omega
  | succ q ih =>
    intro fuel a h
    obtain ⟨f, rfl⟩ : ∃ f, fuel = f + 1 := ⟨fuel - 1, by omega⟩
    have hpow : 2 ^ (q + 1) = 2 * 2 ^ q := by rw [Nat.pow_succ]; ring
    have hx : a * 2 ^ (q + 1) = 2 * (a * 2 ^ q) := by rw [hpow]; ring
    have h2 : 0 < 2 ^ q := Nat.pos_pow_of_pos q (by omega)
    have hodd : (a * 2 ^ (q + 1) + (2 ^ (q + 1) - 1)) % 2 = 1 := by omega
    have hdiv : (a * 2 ^ (q + 1) + (2 ^ (q + 1) - 1)) / 2 = a * 2 ^ q + (2 ^ q - 1) := by
      omega
    simp only [trailingOnesAux, hodd, if_pos, hdiv]
    have := ih f a (by omega)
    omega

theorem trailingOnes_padded (p a : Nat) (hp : p ≤ 32) :
    p ≤ trailingOnes (a * 2 ^ p + (2 ^ p - 1)) :=
  trailingOnesAux_padded p 32 a hp

/-! ### Flush-loop lemmas -/

theorem flushAux_fuel (fuel1 : Nat) : ∀ fuel2 ret stage remaining,
    remaining ≤ fuel1 → remaining ≤ fuel2 →
    flushAux fuel1 (ret, stage, remaining) = flushAux fuel2 (ret, stage, remaining) := by
  induction fuel1 with
  | zero =>
    intro fuel2 ret stage remaining h1 h2
    have hr : remaining = 0 := by omega
    subst hr
    cases fuel2 <;> simp [flushAux]
  | succ f ih =>
    intro fuel2 ret stage remaining h1 h2
    by_cases h8 : 8 ≤ remaining
    · obtain ⟨f2, rfl⟩ : ∃ g, fuel2 = g + 1 := ⟨fuel2 - 1, by omega⟩
      simp only [flushAux, if_pos h8]
      exact ih f2 _ _ _ (by omega) (by omega)
    · cases fuel2 with
      | zero =>
        have hr : remaining = 0 := by omega
        subst hr
        simp [flushAux]
      | succ f2 => simp [flushAux, h8]

theorem flush_eq (ret : List Nat) (stage remaining : Nat) :
    flush ret stage remaining =
      if 8 ≤ remaining then
        flush (ret ++ [(stage >>> (remaining - 8)) % 256])
          (stage &&& (2 ^ (remaining - 8) - 1)) (remaining - 8)
      else (ret, stage, remaining) := by
  by_cases h8 : 8 ≤ remaining
  · obtain ⟨r, rfl⟩ : ∃ r, remaining = r + 8 := ⟨remaining - 8, by omega⟩
    rw [if_pos h8]
    show flushAux (r + 8) _ = _
    rw [show r + 8 = (r + 7) + 1 by omega]
    simp only [flushAux, if_pos h8]
    rw [show r + 7 + 1 - 8 = r by omega]
    exact flushAux_fuel (r + 7) r _ _ _ (by omega) (by omega)
  · rw [if_neg h8]
    unfold flush
    cases hr : remaining with
    | zero => simp [flushAux]
    | succ r => simp [flushAux, hr ▸ h8]

theorem flush_remaining (remaining : Nat) : ∀ ret stage,
    (flush ret stage remaining).2.2 = remaining % 8 := by
  induction remaining using Nat.strong_induction_on with
  | _ remaining ih =>
    intro ret stage
    rw [flush_eq]
    by_cases h8 : 8 ≤ remaining
    · rw [if_pos h8, ih (remaining - 8) (by omega)]
      omega
    · rw [if_neg h8]
      simp
      omega

theorem flush_spec (remaining : Nat) : ∀ ret stage, stage < 2 ^ remaining →
    ∃ pushed, flush ret stage remaining =
        (ret ++ pushed, stage % 2 ^ (remaining % 8), remaining % 8) ∧
      (∀ x ∈ pushed, x < 256) ∧ 8 * pushed.length + remaining % 8 = remaining ∧
      bytesVal pushed * 2 ^ (remaining % 8) + stage % 2 ^ (remaining % 8) = stage := by
  induction remaining using Nat.strong_induction_on with
  | _ remaining ih =>
    intro ret stage hs
    rw [flush_eq]
    by_cases h8 : 8 ≤ remaining
    · rw [if_pos h8]
      set r := remaining - 8 with hr
      have hpow : 2 ^ remaining = 2 ^ r * 2 ^ 8 := by
        rw [← Nat.pow_add]
        congr 1
        omega
      have hb : (stage >>> r) % 256 = stage / 2 ^ r := by
        rw [Nat.shiftRight_eq_div_pow]
        have : stage / 2 ^ r < 2 ^ 8 := by
          apply Nat.div_lt_of_lt_mul
          rw [Nat.mul_comm]
          omega
        exact Nat.mod_eq_of_lt (by omega)
      have hmask : stage &&& (2 ^ r - 1) = stage % 2 ^ r :=
        Nat.and_pow_two_sub_one_eq_mod stage r
      rw [hb, hmask]
      obtain ⟨pushed, heq, hlt, hlen, hval⟩ :=
        ih r (by omega) (ret ++ [stage / 2 ^ r]) (stage % 2 ^ r)
          (Nat.mod_lt _ (Nat.pos_pow_of_pos r (by omega)))
      refine ⟨stage / 2 ^ r :: pushed, ?_, ?_, ?_, ?_⟩
      · rw [heq, List.append_assoc, List.singleton_append]
        have hmm : stage % 2 ^ r % 2 ^ (r % 8) = stage % 2 ^ (r % 8) := by
          apply Nat.mod_mod_of_dvd
          exact Nat.pow_dvd_pow 2 (Nat.mod_le r 8)
        have hr8 : remaining % 8 = r % 8 := by omega
        rw [hmm, hr8]
      · intro x hx
        rcases List.mem_cons.mp hx with h | h
        · subst h
          apply Nat.div_lt_of_lt_mul
          rw [Nat.mul_comm]
          omega
        · exact hlt x h
      · simp only [List.length_cons]
        omega
      · have hr8 : remaining % 8 = r % 8 := by omega
        rw [hr8]
        simp only [bytesVal]
        have h1 : stage % 2 ^ r % 2 ^ (r % 8) = stage % 2 ^ (r % 8) := by
          apply Nat.mod_mod_of_dvd
          exact Nat.pow_dvd_pow 2 (Nat.mod_le r 8)
        rw [h1] at hval
        have h4 : 8 * pushed.length + r % 8 = r := hlen
        have h3 : stage / 2 ^ r * 2 ^ (8 * pushed.length) * 2 ^ (r % 8)
            = stage / 2 ^ r * 2 ^ r := by
          rw [Nat.mul_assoc, ← Nat.pow_add, h4]
        calc (stage / 2 ^ r * 2 ^ (8 * pushed.length) + bytesVal pushed) * 2 ^ (r % 8)
              + stage % 2 ^ (r % 8)
            = stage / 2 ^ r * 2 ^ (8 * pushed.length) * 2 ^ (r % 8)
              + (bytesVal pushed * 2 ^ (r % 8) + stage % 2 ^ (r % 8)) := by ring
          _ = stage / 2 ^ r * 2 ^ r + stage % 2 ^ r := by rw [h3, hval]
          _ = stage := Nat.div_add_mod' stage (2 ^ r)
    · rw [if_neg h8]
      have hr8 : remaining % 8 = remaining := Nat.mod_eq_of_lt (by omega)
      have hsm : stage % 2 ^ (remaining % 8) = stage := by
        rw [hr8]
        exact Nat.mod_eq_of_lt hs
      refine ⟨[], by rw [hr8, Nat.mod_eq_of_lt hs, List.append_nil], by simp,
        by simp only [List.length_nil]; omega, by simp [bytesVal, hsm]⟩

/-! ### Bit-stream value lemmas -/

theorem bytesVal_append (l1 l2 : List Nat) :
    bytesVal (l1 ++ l2) = bytesVal l1 * 2 ^ (8 * l2.length) + bytesVal l2 := by
  induction l1 with
  | nil => simp [bytesVal]
  | cons a t ih =>
    show a * 2 ^ (8 * (t ++ l2).length) + bytesVal (t ++ l2)
      = (a * 2 ^ (8 * t.length) + bytesVal t) * 2 ^ (8 * l2.length) + bytesVal l2
    rw [List.length_append, ih, Nat.mul_add 8 t.length l2.length, pow_add]
    ring

theorem bytesVal_lt (l : List Nat) (h : ∀ x ∈ l, x < 256) :
    bytesVal l < 2 ^ (8 * l.length) := by
  induction l with
  | nil => simp [bytesVal]
  | cons a t ih =>
    simp only [bytesVal, List.length_cons]
    have ha : a < 256 := h a (by simp)
    have ht := ih (fun x hx => h x (by simp [hx]))
    have hp : 2 ^ (8 * (t.length + 1)) = 2 ^ (8 * t.length) * 256 := by
      rw [show 8 * (t.length + 1) = 8 * t.length + 8 by ring, pow_add]
      norm_num
    have hm : a * 2 ^ (8 * t.length) ≤ 255 * 2 ^ (8 * t.length) :=
      Nat.mul_le_mul_right _ (by omega)
    rw [hp]
    omega

theorem bytesVal_inj : ∀ l1 l2 : List Nat, l1.length = l2.length →
    (∀ x ∈ l1, x < 256) → (∀ x ∈ l2, x < 256) → bytesVal l1 = bytesVal l2 → l1 = l2 := by
  intro l1
  induction l1 with
  | nil =>
    intro l2 hlen _ _ _
    cases l2 with
    | nil => rfl
    | cons b s => simp at hlen
  | cons a t ih =>
    intro l2 hlen h1 h2 hv
    cases l2 with
    | nil => simp at hlen
    | cons b s =>
      simp only [List.length_cons] at hlen
      have hts : t.length = s.length := by omega
      simp only [bytesVal, hts] at hv
      have hvt := bytesVal_lt t (fun x hx => h1 x (by simp [hx]))
      have hvs := bytesVal_lt s (fun x hx => h2 x (by simp [hx]))
      rw [hts] at hvt
      have hB : 0 < 2 ^ (8 * s.length) := Nat.pos_pow_of_pos _ (by omega)
      have ha : a = (a * 2 ^ (8 * s.length) + bytesVal t) / 2 ^ (8 * s.length) := by
        rw [Nat.mul_comm, Nat.mul_add_div hB, Nat.div_eq_of_lt hvt]
        omega
      have hb2 : b = (b * 2 ^ (8 * s.length) + bytesVal s) / 2 ^ (8 * s.length) := by
        rw [Nat.mul_comm, Nat.mul_add_div hB, Nat.div_eq_of_lt hvs]
        omega
      have hab : a = b := by rw [ha, hv, ← hb2]
      subst hab
      have htv : bytesVal t = bytesVal s := by omega
      rw [ih s hts (fun x hx => h1 x (by simp [hx])) (fun x hx => h2 x (by simp [hx])) htv]

theorem groupsVal_concat (l : List Nat) (g : Nat) :
    groupsVal (l ++ [g]) = groupsVal l * 2 ^ 11 + g := by
  induction l with
  | nil => simp [groupsVal]
  | cons a t ih =>
    show a * 2 ^ (11 * (t ++ [g]).length) + groupsVal (t ++ [g])
      = (a * 2 ^ (11 * t.length) + groupsVal t) * 2 ^ 11 + g
    rw [List.length_append, ih, List.length_cons, List.length_nil,
      show 11 * (t.length + (0 + 1)) = 11 * t.length + 11 by ring, pow_add]
    ring

/-! ### Encoder loop invariant -/

theorem encLoop_append (t : List Nat) (x : Nat) :
    encLoop (t ++ [x]) = encStep (encLoop t) x := by
  unfold encLoop
  rw [List.foldl_append]
  rfl

theorem encLoop_inv (b : List Nat) (hb : ∀ x ∈ b, x < 256) :
    ∃ gs stage remaining,
      encLoop b = (gs.map ENC_TABLE, stage, remaining) ∧
      (∀ g ∈ gs, g < 2048) ∧ remaining ≤ 10 ∧ stage < 2 ^ remaining ∧
      11 * gs.length + remaining = 8 * b.length ∧
      groupsVal gs * 2 ^ remaining + stage = bytesVal b := by
  induction b using List.reverseRecOn with
  | nil =>
    exact ⟨[], 0, 0, rfl, by simp, by omega, by norm_num, by simp, by simp [groupsVal, bytesVal]⟩
  | append_singleton t x ih =>
    have hbt : ∀ y ∈ t, y < 256 := fun y hy => hb y (by simp [hy])
    have hx : x < 256 := hb x (by simp)
    obtain ⟨gs, stage, remaining, heq, hg, hrem, hstage, hlen, hval⟩ := ih hbt
    rw [encLoop_append, heq]
    have hbv : bytesVal (t ++ [x]) = bytesVal t * 2 ^ 8 + x := by
      rw [bytesVal_append]
      simp [bytesVal]
    by_cases h3 : 3 ≤ remaining
    · -- `need ≤ 8`: a character is emitted
      have hneed : 11 - remaining ≤ 8 := by omega
      have hsl : stage <<< (11 - remaining) < 65536 := by
        rw [Nat.shiftLeft_eq]
        have h1 : 2 ^ remaining * 2 ^ (11 - remaining) = 2 ^ 11 := by
          rw [← pow_add]
          congr 1
          omega
        have h2 : stage * 2 ^ (11 - remaining) ≤ (2 ^ remaining - 1) * 2 ^ (11 - remaining) :=
          Nat.mul_le_mul_right _ (by omega)
        have h4 : 0 < 2 ^ (11 - remaining) := Nat.pos_pow_of_pos _ (by omega)
        have h5 : (2 ^ remaining - 1) * 2 ^ (11 - remaining)
            = 2 ^ remaining * 2 ^ (11 - remaining) - 2 ^ (11 - remaining) := by
          rw [Nat.sub_mul, Nat.one_mul]
        omega
      have hdivlt : x >>> (remaining - 3) < 2 ^ (11 - remaining) := by
        rw [Nat.shiftRight_eq_div_pow]
        apply Nat.div_lt_of_lt_mul
        have : 2 ^ (remaining - 3) * 2 ^ (11 - remaining) = 2 ^ 8 := by
          rw [← pow_add]
          congr 1
          omega
        rw [Nat.mul_comm] at this ⊢
        omega
      have hidx : shl16 stage (11 - remaining) ||| (x >>> (remaining - 3))
          = stage * 2 ^ (11 - remaining) + x >>> (remaining - 3) := by
        rw [shl16_eq _ _ hsl, shiftLeft_lor_eq _ _ _ hdivlt]
      have hidxlt : stage * 2 ^ (11 - remaining) + x >>> (remaining - 3) < 2048 := by
        have h1 : 2 ^ remaining * 2 ^ (11 - remaining) = 2048 := by
          rw [← pow_add]
          have h6 : remaining + (11 - remaining) = 11 := by omega
          rw [h6]
          norm_num
        calc stage * 2 ^ (11 - remaining) + x >>> (remaining - 3)
            < stage * 2 ^ (11 - remaining) + 2 ^ (11 - remaining) :=
              Nat.add_lt_add_left hdivlt _
          _ = (stage + 1) * 2 ^ (11 - remaining) := by ring
          _ ≤ 2 ^ remaining * 2 ^ (11 - remaining) := Nat.mul_le_mul_right _ (by omega)
          _ = 2048 := h1
      refine ⟨gs ++ [stage * 2 ^ (11 - remaining) + x >>> (remaining - 3)],
        x &&& (2 ^ (remaining - 3) - 1), remaining - 3, ?_, ?_, by omega, ?_, ?_, ?_⟩
      · simp only [encStep]
        simp [hneed, hidx, show 8 - (11 - remaining) = remaining - 3 by omega]
      · intro g hgm
        rcases List.mem_append.mp hgm with h | h
        · exact hg g h
        · have hge : g = stage * 2 ^ (11 - remaining) + x >>> (remaining - 3) := by
            simpa using h
          rw [hge]
          exact hidxlt
      · rw [Nat.and_pow_two_sub_one_eq_mod]
        exact Nat.mod_lt _ (Nat.pos_pow_of_pos _ (by omega))
      · simp only [List.length_append, List.length_cons, List.length_nil]
        omega
      · rw [groupsVal_concat, Nat.and_pow_two_sub_one_eq_mod, hbv]
        rw [Nat.shiftRight_eq_div_pow]
        have hp1 : 2 ^ 11 * 2 ^ (remaining - 3) = 2 ^ remaining * 2 ^ 8 := by
          rw [← pow_add, ← pow_add]
          congr 1
          omega
        have hp2 : 2 ^ (11 - remaining) * 2 ^ (remaining - 3) = 2 ^ 8 := by
          rw [← pow_add]
          congr 1
          omega
        have hda : x / 2 ^ (remaining - 3) * 2 ^ (remaining - 3) + x % 2 ^ (remaining - 3) = x :=
          Nat.div_add_mod' x (2 ^ (remaining - 3))
        calc (groupsVal gs * 2 ^ 11 + (stage * 2 ^ (11 - remaining) + x / 2 ^ (remaining - 3)))
              * 2 ^ (remaining - 3) + x % 2 ^ (remaining - 3)
            = groupsVal gs * (2 ^ 11 * 2 ^ (remaining - 3))
              + stage * (2 ^ (11 - remaining) * 2 ^ (remaining - 3))
              + (x / 2 ^ (remaining - 3) * 2 ^ (remaining - 3) + x % 2 ^ (remaining - 3)) := by
              ring
          _ = groupsVal gs * (2 ^ remaining * 2 ^ 8) + stage * 2 ^ 8 + x := by
              rw [hp1, hp2, hda]
          _ = (groupsVal gs * 2 ^ remaining + stage) * 2 ^ 8 + x := by ring
          _ = bytesVal t * 2 ^ 8 + x := by rw [hval]
    · -- `need > 8`: the byte is shifted into the accumulator
      have hneed : ¬ (11 - remaining ≤ 8) := by omega
      have hsl : stage <<< 8 < 65536 := by
        rw [Nat.shiftLeft_eq]
        have : 2 ^ remaining ≤ 2 ^ 2 := Nat.pow_le_pow_right (by omega) (by omega)
        have h8 : (2 : Nat) ^ 8 = 256 := by norm_num
        omega
      have hor : shl16 stage 8 ||| x = stage * 2 ^ 8 + x := by
        rw [shl16_eq _ _ hsl, shiftLeft_lor_eq _ _ _ (by omega)]
      have hp : 2 ^ (remaining + 8) = 2 ^ remaining * 2 ^ 8 := pow_add 2 remaining 8
      refine ⟨gs, stage * 2 ^ 8 + x, remaining + 8, ?_, hg, by omega, ?_, ?_, ?_⟩
      · simp only [encStep]
        simp [hneed, hor]
      · have h8 : (2 : Nat) ^ 8 = 256 := by norm_num
        rw [hp, h8]
        rw [h8] at *
        omega
      · simp only [List.length_append, List.length_cons, List.length_nil]
        omega
      · rw [hp, hbv, ← hval]
        ring

/-! ### Padding helpers -/

theorem shl_lt (stage remaining p m : Nat) (hs : stage < 2 ^ remaining)
    (hpm : remaining + p ≤ m) : stage <<< p < 2 ^ m := by
  rw [Nat.shiftLeft_eq]
  calc stage * 2 ^ p < 2 ^ remaining * 2 ^ p :=
        Nat.mul_lt_mul_of_pos_right hs (Nat.pos_pow_of_pos _ (by omega))
    _ = 2 ^ (remaining + p) := (pow_add 2 remaining p).symm
    _ ≤ 2 ^ m := Nat.pow_le_pow_right (by omega) hpm

theorem padded_lt (stage remaining p m : Nat) (hs : stage < 2 ^ remaining)
    (hpm : remaining + p = m) : stage * 2 ^ p + (2 ^ p - 1) < 2 ^ m := by
  have h2 : 0 < 2 ^ p := Nat.pos_pow_of_pos _ (by omega)
  calc stage * 2 ^ p + (2 ^ p - 1)
      < stage * 2 ^ p + 2 ^ p := Nat.add_lt_add_left (by omega) _
    _ = (stage + 1) * 2 ^ p := by ring
    _ ≤ 2 ^ remaining * 2 ^ p := Nat.mul_le_mul_right _ (by omega)
    _ = 2 ^ (remaining + p) := (pow_add 2 remaining p).symm
    _ = 2 ^ m := by rw [hpm]

theorem pad_index_eq (stage p : Nat) (hp : p < 16) (hlt : stage <<< p < 65536) :
    shl16 stage p ||| not16 (shl16 65535 p) = stage * 2 ^ p + (2 ^ p - 1) := by
  have h2 : 0 < 2 ^ p := Nat.pos_pow_of_pos _ (by omega)
  rw [mask_ones p hp, shl16_eq _ _ hlt, shiftLeft_lor_eq _ _ _ (by omega)]

/-! ### Shape of the encoder output -/

theorem encode_cases (b : List Nat) (hb : ∀ x ∈ b, x < 256) :
    ∃ gs stage remaining,
      encLoop b = (gs.map ENC_TABLE, stage, remaining) ∧
      (∀ g ∈ gs, g < 2048) ∧ remaining ≤ 10 ∧ stage < 2 ^ remaining ∧
      11 * gs.length + remaining = 8 * b.length ∧
      groupsVal gs * 2 ^ remaining + stage = bytesVal b ∧
      (remaining = 0 → encode b = gs.map ENC_TABLE) ∧
      (1 ≤ remaining → remaining ≤ 3 →
        encode b = gs.map ENC_TABLE
          ++ [TAIL.getD (stage * 2 ^ (3 - remaining) + (2 ^ (3 - remaining) - 1)) 0] ∧
        stage * 2 ^ (3 - remaining) + (2 ^ (3 - remaining) - 1) < 8) ∧
      (4 ≤ remaining →
        encode b = gs.map ENC_TABLE
          ++ [ENC_TABLE (stage * 2 ^ (11 - remaining) + (2 ^ (11 - remaining) - 1))] ∧
        stage * 2 ^ (11 - remaining) + (2 ^ (11 - remaining) - 1) < 2048) := by
  obtain ⟨gs, stage, remaining, heq, hg, hrem, hstage, hlen, hval⟩ := encLoop_inv b hb
  refine ⟨gs, stage, remaining, heq, hg, hrem, hstage, hlen, hval, ?_, ?_, ?_⟩
  · intro h0
    unfold encode
    rw [heq]
    simp [h0]
  · intro h1 h3
    have hsl : stage <<< (3 - remaining) < 65536 :=
      shl_lt stage remaining _ 16 hstage (by omega)
    have hidx := pad_index_eq stage (3 - remaining) (by omega) hsl
    constructor
    · unfold encode
      rw [heq]
      simp only [TAIL_BITS, BITS_PER_CHAR]
      rw [if_pos (by omega : remaining > 0), if_pos h3, hidx]
    · exact padded_lt stage remaining _ 3 hstage (by omega)
  · intro h4
    have hsl : stage <<< (11 - remaining) < 65536 :=
      shl_lt stage remaining _ 16 hstage (by omega)
    have hidx := pad_index_eq stage (11 - remaining) (by omega) hsl
    constructor
    · unfold encode
      rw [heq]
      simp only [TAIL_BITS, BITS_PER_CHAR]
      rw [if_pos (by omega : remaining > 0), if_neg (by omega : ¬ remaining ≤ 3), hidx]
    · exact padded_lt stage remaining _ 11 hstage (by omega)

/-! ### Checked encoder agrees with the unchecked one -/

theorem encStepC_eq (ret : List Nat) (stage remaining x : Nat) (hrem : remaining ≤ 10)
    (hstage : stage < 2 ^ remaining) (hx : x < 256) :
    encStepC (ret, stage, remaining) x = some (encStep (ret, stage, remaining) x) := by
  by_cases h3 : 3 ≤ remaining
  · have hneed : 11 - remaining ≤ 8 := by omega
    have hsl : stage <<< (11 - remaining) < 65536 :=
      shl_lt stage remaining _ 16 hstage (by omega)
    have hdivlt : x >>> (remaining - 3) < 2 ^ (11 - remaining) := by
      rw [Nat.shiftRight_eq_div_pow]
      apply Nat.div_lt_of_lt_mul
      have h6 : 2 ^ (remaining - 3) * 2 ^ (11 - remaining) = 2 ^ 8 := by
        rw [← pow_add]
        congr 1
        omega
      rw [Nat.mul_comm] at h6 ⊢
      omega
    have hor : stage <<< (11 - remaining) ||| x >>> (remaining - 3)
        = stage * 2 ^ (11 - remaining) + x >>> (remaining - 3) :=
      shiftLeft_lor_eq _ _ _ hdivlt
    have hidxlt : stage * 2 ^ (11 - remaining) + x >>> (remaining - 3) < 2048 := by
      have h1 : 2 ^ remaining * 2 ^ (11 - remaining) = 2048 := by
        rw [← pow_add]
        have h6 : remaining + (11 - remaining) = 11 := by omega
        rw [h6]
        norm_num
      calc stage * 2 ^ (11 - remaining) + x >>> (remaining - 3)
          < stage * 2 ^ (11 - remaining) + 2 ^ (11 - remaining) :=
            Nat.add_lt_add_left hdivlt _
        _ = (stage + 1) * 2 ^ (11 - remaining) := by ring
        _ ≤ 2 ^ remaining * 2 ^ (11 - remaining) := Nat.mul_le_mul_right _ (by omega)
        _ = 2048 := h1
    simp only [encStepC, encStep, if_pos hrem, if_pos hneed]
    rw [show 8 - (11 - remaining) = remaining - 3 from by omega, hor,
      if_pos ⟨hsl, hidxlt⟩, shl16_eq _ _ hsl, hor]
  · have hneed : ¬ (11 - remaining ≤ 8) := by omega
    have hsl : stage <<< 8 < 65536 := shl_lt stage remaining 8 16 hstage (by omega)
    simp only [encStepC, encStep, if_pos hrem, if_neg hneed]
    rw [if_pos hsl, shl16_eq _ _ hsl]

theorem encLoopC_append (t : List Nat) (x : Nat) :
    encLoopC (t ++ [x]) = (encLoopC t).bind (fun st => encStepC st x) := by
  unfold encLoopC
  rw [List.foldl_append]
  rfl

theorem encLoopC_eq (b : List Nat) (hb : ∀ x ∈ b, x < 256) :
    encLoopC b = some (encLoop b) := by
  induction b using List.reverseRecOn with
  | nil => rfl
  | append_singleton t x ih =>
    have hbt : ∀ y ∈ t, y < 256 := fun y hy => hb y (by simp [hy])
    have hx : x < 256 := hb x (by simp)
    obtain ⟨gs, stage, remaining, heq, hg, hrem, hstage, hlen, hval⟩ := encLoop_inv t hbt
    rw [encLoopC_append, ih hbt, encLoop_append, Option.some_bind, heq,
      encStepC_eq _ _ _ _ hrem hstage hx]

theorem encodeC_eq (b : List Nat) (hb : ∀ x ∈ b, x < 256) :
    encodeC b = some (encode b) := by
  obtain ⟨gs, stage, remaining, heq, hg, hrem, hstage, hlen, hval, hc0, hc13, hc4⟩ :=
    encode_cases b hb
  unfold encodeC
  rw [encLoopC_eq b hb, heq]
  rcases Nat.lt_or_ge remaining 1 with h0 | h1
  · have hr0 : remaining = 0 := by omega
    subst hr0
    simp [hc0 rfl]
  · rcases Nat.lt_or_ge remaining 4 with h3 | h4
    · obtain ⟨henc, hidx⟩ := hc13 h1 (by omega)
      have hsl : stage <<< (3 - remaining) < 65536 :=
        shl_lt stage remaining _ 16 hstage (by omega)
      have hpow : 0 < 2 ^ (3 - remaining) := Nat.pos_pow_of_pos _ (by omega)
      have hor : stage <<< (3 - remaining) ||| (2 ^ (3 - remaining) - 1)
          = stage * 2 ^ (3 - remaining) + (2 ^ (3 - remaining) - 1) :=
        shiftLeft_lor_eq _ _ _ (by omega)
      simp only [TAIL_BITS, BITS_PER_CHAR]
      rw [if_pos (by omega : remaining > 0), if_pos (by omega : remaining ≤ 3), hor,
        if_pos ⟨hsl, hidx⟩, henc]
    · obtain ⟨henc, hidx⟩ := hc4 h4
      have hsl : stage <<< (11 - remaining) < 65536 :=
        shl_lt stage remaining _ 16 hstage (by omega)
      have hpow : 0 < 2 ^ (11 - remaining) := Nat.pos_pow_of_pos _ (by omega)
      have hor : stage <<< (11 - remaining) ||| (2 ^ (11 - remaining) - 1)
          = stage * 2 ^ (11 - remaining) + (2 ^ (11 - remaining) - 1) :=
        shiftLeft_lor_eq _ _ _ (by omega)
      simp only [TAIL_BITS, BITS_PER_CHAR]
      rw [if_pos (by omega : remaining > 0), if_neg (by omega : ¬ remaining ≤ 3), hor,
        if_pos ⟨hsl, hidx⟩, henc]

/-! ### Table facts -/

theorem dec_enc (g : Nat) (hg : g < 2048) : DEC_TABLE (ENC_TABLE g) = g := by
  unfold DEC_TABLE ENC_TABLE
  rw [if_pos (by omega)]
  omega

theorem dec_enc_ne (g : Nat) (hg : g < 2048) : DEC_TABLE (ENC_TABLE g) ≠ 0xFFFF := by
  rw [dec_enc g hg]
  omega

theorem enc_lt_len (g : Nat) (hg : g < 2048) : ENC_TABLE g < DEC_TABLE_LEN := by
  unfold ENC_TABLE DEC_TABLE_LEN
  omega

theorem tail_getD : ∀ i < 8, TAIL.getD i 0 = 48 + i := by decide

theorem tail_findIdx : ∀ i < 8, List.findIdx? (fun t => t == 48 + i) TAIL = some i := by decide

theorem tail_dec_sentinel : ∀ i < 8, DEC_TABLE (48 + i) = 0xFFFF := by decide

theorem tail_lt_len : ∀ i < 8, 48 + i < DEC_TABLE_LEN := by decide

/-! ### Decoder: processing a run of non-final primary characters -/

/-- Proof-side abbreviation: the decoder state `(ret, remaining, stage, residue)` after
one non-final primary character (the `(11, new_bits)` arm of `decode`). -/
def decNStep (st : List Nat × Nat × Nat × Nat) (c : Nat) : List Nat × Nat × Nat × Nat :=
  let ret := st.1
  let remaining := st.2.1
  let stage := st.2.2.1
  let residue := st.2.2.2
  let fl := flush ret ((stage <<< 11) % 2 ^ 32 ||| DEC_TABLE c) (remaining + 11)
  (fl.1, fl.2.2, fl.2.1, (residue + 11) % 8)

/-- Decoder state after a list of non-final primary characters. -/
def decNormal (st : List Nat × Nat × Nat × Nat) (cs : List Nat) : List Nat × Nat × Nat × Nat :=
  cs.foldl decNStep st

theorem decGo_cons_primary (c : Nat) (rest : List Nat) (hne : rest.isEmpty = false)
    (hc : c < DEC_TABLE_LEN) (hcp : DEC_TABLE c ≠ 0xFFFF)
    (ret : List Nat) (remaining stage residue : Nat) :
    decGo ret remaining stage residue (c :: rest) =
      decGo (decNStep (ret, remaining, stage, residue) c).1
        (decNStep (ret, remaining, stage, residue) c).2.1
        (decNStep (ret, remaining, stage, residue) c).2.2.1
        (decNStep (ret, remaining, stage, residue) c).2.2.2 rest := by
  simp only [decGo, if_pos hc, if_neg hcp, hne, decNStep]
  rfl

theorem decNormal_cons (st : List Nat × Nat × Nat × Nat) (c : Nat) (cs : List Nat) :
    decNormal st (c :: cs) = decNormal (decNStep st c) cs := rfl

theorem decNormal_append (st : List Nat × Nat × Nat × Nat) (cs1 cs2 : List Nat) :
    decNormal st (cs1 ++ cs2) = decNormal (decNormal st cs1) cs2 := by
  unfold decNormal
  rw [List.foldl_append]

theorem decGo_append (cs : List Nat) : ∀ d ds ret remaining stage residue,
    (∀ c ∈ cs, c < DEC_TABLE_LEN ∧ DEC_TABLE c ≠ 0xFFFF) →
    decGo ret remaining stage residue (cs ++ d :: ds) =
      decGo (decNormal (ret, remaining, stage, residue) cs).1
        (decNormal (ret, remaining, stage, residue) cs).2.1
        (decNormal (ret, remaining, stage, residue) cs).2.2.1
        (decNormal (ret, remaining, stage, residue) cs).2.2.2 (d :: ds) := by
  induction cs with
  | nil => intro d ds ret remaining stage residue h; rfl
  | cons c cs ih =>
    intro d ds ret remaining stage residue h
    have hc := h c (by simp)
    have hne : (cs ++ d :: ds).isEmpty = false := by
      cases cs <;> simp
    rw [List.cons_append, decGo_cons_primary c _ hne hc.1 hc.2, decNormal_cons]
    exact ih d ds _ _ _ _ (fun x hx => h x (by simp [hx]))

/-! ### Decoder invariant over primary characters -/

theorem decNormal_inv (gs : List Nat) (hg : ∀ g ∈ gs, g < 2048) :
    ∃ ret remaining stage,
      decNormal ([], 0, 0, 0) (gs.map ENC_TABLE) = (ret, remaining, stage, 11 * gs.length % 8) ∧
      remaining = 11 * gs.length % 8 ∧ (∀ x ∈ ret, x < 256) ∧ stage < 2 ^ remaining ∧
      8 * ret.length + remaining = 11 * gs.length ∧
      bytesVal ret * 2 ^ remaining + stage = groupsVal gs := by
  induction gs using List.reverseRecOn with
  | nil =>
    exact ⟨[], 0, 0, rfl, rfl, by simp, by norm_num, by simp, by simp [bytesVal, groupsVal]⟩
  | append_singleton l g ihl =>
    have hgl : ∀ x ∈ l, x < 2048 := fun x hx => hg x (by simp [hx])
    have hgg : g < 2048 := hg g (by simp)
    obtain ⟨ret, remaining, stage, heq, hrr, hret, hstage, hlen, hval⟩ := ihl hgl
    have hrem8 : remaining < 8 := by omega
    rw [List.map_append, List.map_cons, List.map_nil, decNormal_append, heq]
    rw [show decNormal (ret, remaining, stage, 11 * l.length % 8) [ENC_TABLE g]
        = decNStep (ret, remaining, stage, 11 * l.length % 8) (ENC_TABLE g) from rfl]
    have hsl : stage <<< 11 < 2 ^ 32 := shl_lt stage remaining 11 32 hstage (by omega)
    have hslm : (stage <<< 11) % 2 ^ 32 = stage <<< 11 := Nat.mod_eq_of_lt hsl
    have hor : stage <<< 11 ||| g = stage * 2 ^ 11 + g :=
      shiftLeft_lor_eq _ _ _ (by norm_num at hgg ⊢; omega)
    have hbnd : stage * 2 ^ 11 + g < 2 ^ (remaining + 11) := by
      calc stage * 2 ^ 11 + g < stage * 2 ^ 11 + 2 ^ 11 :=
            Nat.add_lt_add_left (by norm_num; omega) _
        _ = (stage + 1) * 2 ^ 11 := by ring
        _ ≤ 2 ^ remaining * 2 ^ 11 := Nat.mul_le_mul_right _ (by omega)
        _ = 2 ^ (remaining + 11) := (pow_add 2 remaining 11).symm
    simp only [decNStep, dec_enc g hgg, hslm, hor]
    obtain ⟨pushed, hfl, hplt, hplen, hpval⟩ := flush_spec (remaining + 11) ret
      (stage * 2 ^ 11 + g) hbnd
    rw [hfl]
    have hmod : (remaining + 11) % 8 = 11 * (l.length + 1) % 8 := by omega
    refine ⟨ret ++ pushed, (remaining + 11) % 8, (stage * 2 ^ 11 + g) % 2 ^ ((remaining + 11) % 8),
      ?_, ?_, ?_, ?_, ?_, ?_⟩
    · simp only [List.length_append, List.length_cons, List.length_nil]
      rw [hmod]
      have hres : (11 * l.length % 8 + 11) % 8 = 11 * (l.length + (0 + 1)) % 8 := by omega
      rw [hres]
    · rw [hmod]
      simp
    · intro x hx
      rcases List.mem_append.mp hx with h | h
      · exact hret x h
      · exact hplt x h
    · exact Nat.mod_lt _ (Nat.pos_pow_of_pos _ (by omega))
    · simp only [List.length_append, List.length_cons, List.length_nil]
      omega
    · rw [bytesVal_append, groupsVal_concat]
      have h8p : 8 * pushed.length = remaining + 11 - (remaining + 11) % 8 := by omega
      calc (bytesVal ret * 2 ^ (8 * pushed.length) + bytesVal pushed)
              * 2 ^ ((remaining + 11) % 8)
            + (stage * 2 ^ 11 + g) % 2 ^ ((remaining + 11) % 8)
          = bytesVal ret * (2 ^ (8 * pushed.length) * 2 ^ ((remaining + 11) % 8))
            + (bytesVal pushed * 2 ^ ((remaining + 11) % 8)
              + (stage * 2 ^ 11 + g) % 2 ^ ((remaining + 11) % 8)) := by ring
        _ = bytesVal ret * 2 ^ (remaining + 11) + (stage * 2 ^ 11 + g) := by
            rw [← pow_add, hpval, hplen]
        _ = (bytesVal ret * 2 ^ remaining + stage) * 2 ^ 11 + g := by
            rw [pow_add]
            ring
        _ = groupsVal l * 2 ^ 11 + g := by rw [hval]

/-! ### Final flush of the decoder -/

theorem decode_finish (b retD : List Nat) (remD stageD nb v : Nat)
    (hret : ∀ x ∈ retD, x < 256) (hstage : stageD < 2 ^ remD) (hv : v < 2 ^ nb)
    (hsm : remD + nb ≤ 32) (hmod : (remD + nb) % 8 = 0)
    (hlen : 8 * b.length = 8 * retD.length + (remD + nb))
    (hb : ∀ x ∈ b, x < 256)
    (hval : (bytesVal retD * 2 ^ remD + stageD) * 2 ^ nb + v = bytesVal b) :
    flush retD ((stageD <<< nb) % 2 ^ 32 ||| v) (remD + nb) = (b, 0, 0) := by
  have hsl : stageD <<< nb < 2 ^ 32 := shl_lt stageD remD nb 32 hstage hsm
  have hslm : (stageD <<< nb) % 2 ^ 32 = stageD <<< nb := Nat.mod_eq_of_lt hsl
  have hor : stageD <<< nb ||| v = stageD * 2 ^ nb + v := shiftLeft_lor_eq _ _ _ hv
  have hbnd : stageD * 2 ^ nb + v < 2 ^ (remD + nb) := by
    calc stageD * 2 ^ nb + v < stageD * 2 ^ nb + 2 ^ nb := Nat.add_lt_add_left hv _
      _ = (stageD + 1) * 2 ^ nb := by ring
      _ ≤ 2 ^ remD * 2 ^ nb := Nat.mul_le_mul_right _ (by omega)
      _ = 2 ^ (remD + nb) := (pow_add 2 remD nb).symm
  rw [hslm, hor]
  obtain ⟨pushed, hfl, hplt, hplen, hpval⟩ := flush_spec (remD + nb) retD
    (stageD * 2 ^ nb + v) hbnd
  rw [hfl, hmod]
  rw [hmod] at hplen hpval
  simp only [pow_zero, Nat.mod_one, Nat.mul_one, Nat.add_zero] at hpval
  have hbeq : retD ++ pushed = b := by
    apply bytesVal_inj
    · simp only [List.length_append]
      omega
    · intro x hx
      rcases List.mem_append.mp hx with h | h
      · exact hret x h
      · exact hplt x h
    · exact hb
    · rw [bytesVal_append]
      have h8p : 8 * pushed.length = remD + nb := by omega
      rw [h8p, hpval, ← hval]
      rw [pow_add]
      ring
  rw [hbeq]
  simp [Nat.mod_one]

/-! ### Unfolding the decoder on its final character -/

theorem decGo_last_primary (ret : List Nat) (remaining stage residue c : Nat)
    (hlt : c < DEC_TABLE_LEN) (hne : DEC_TABLE c ≠ 0xFFFF) :
    decGo ret remaining stage residue [c] =
      .ok (some ((flush ret ((stage <<< (11 - (residue + 11) % 8)) % 2 ^ 32
            ||| DEC_TABLE c >>> ((residue + 11) % 8))
          (remaining + (11 - (residue + 11) % 8))).1,
        (flush ret ((stage <<< (11 - (residue + 11) % 8)) % 2 ^ 32
            ||| DEC_TABLE c >>> ((residue + 11) % 8))
          (remaining + (11 - (residue + 11) % 8))).2.2,
        (flush ret ((stage <<< (11 - (residue + 11) % 8)) % 2 ^ 32
            ||| DEC_TABLE c >>> ((residue + 11) % 8))
          (remaining + (11 - (residue + 11) % 8))).2.1)) := by
  simp only [decGo, if_pos hlt, if_neg hne, List.isEmpty_nil, if_true]

theorem decGo_last_tail (ret : List Nat) (remaining stage residue i : Nat) (hi : i < 8)
    (hguard : trailingOnes i ≥ (TAIL_BITS + 2 ^ 32 - (8 - remaining)) % 2 ^ 32) :
    decGo ret remaining stage residue [48 + i] =
      .ok (some ((flush ret ((stage <<< (8 - remaining)) % 2 ^ 32
            ||| i >>> ((TAIL_BITS + 2 ^ 32 - (8 - remaining)) % 2 ^ 32))
          (remaining + (8 - remaining))).1,
        (flush ret ((stage <<< (8 - remaining)) % 2 ^ 32
            ||| i >>> ((TAIL_BITS + 2 ^ 32 - (8 - remaining)) % 2 ^ 32))
          (remaining + (8 - remaining))).2.2,
        (flush ret ((stage <<< (8 - remaining)) % 2 ^ 32
            ||| i >>> ((TAIL_BITS + 2 ^ 32 - (8 - remaining)) % 2 ^ 32))
          (remaining + (8 - remaining))).2.1)) := by
  have hlt := tail_lt_len i hi
  have hsent := tail_dec_sentinel i hi
  have hfind := tail_findIdx i hi
  simp only [decGo, if_pos hlt, hsent, List.isEmpty_nil, if_true, hfind, ge_iff_le,
    if_pos hguard]

/-! ### Round trip -/

theorem decGo_encode (b : List Nat) (hb : ∀ x ∈ b, x < 256) :
    decGo [] 0 0 0 (encode b) = .ok (some (b, 0, 0)) := by
  obtain ⟨gs, stage, remaining, heq, hg, hrem, hstage, hlen, hval, hc0, hc13, hc4⟩ :=
    encode_cases b hb
  rcases Nat.lt_or_ge remaining 1 with h0 | h1
  · -- the byte stream splits evenly into 11-bit groups
    have hr0 : remaining = 0 := by omega
    subst hr0
    have hst0 : stage = 0 := by omega
    subst hst0
    rcases List.eq_nil_or_concat gs with rfl | ⟨l, g, rfl⟩
    · have hb0 : b = [] := by
        have hl0 : b.length = 0 := by
          simp only [List.length_nil] at hlen
          omega
        exact List.length_eq_zero.mp hl0
      subst hb0
      rw [hc0 rfl]
      rfl
    · simp only [List.concat_eq_append] at hg hlen heq hval
      have hgl : ∀ x ∈ l, x < 2048 := fun x hx => hg x (by simp [hx])
      have hgg : g < 2048 := hg g (by simp)
      have h11 : 11 * (l.length + 1) = 8 * b.length := by
        simp only [List.length_append, List.length_cons, List.length_nil] at hlen
        omega
      have hcs : encode b = (List.map ENC_TABLE l) ++ [ENC_TABLE g] := by
        rw [hc0 rfl, List.concat_eq_append, List.map_append, List.map_cons, List.map_nil]
      obtain ⟨retD, remD, stageD, hD, hDr, hDret, hDstage, hDlen, hDval⟩ := decNormal_inv l hgl
      have hprim : ∀ c ∈ List.map ENC_TABLE l, c < DEC_TABLE_LEN ∧ DEC_TABLE c ≠ 0xFFFF := by
        intro c hcm
        obtain ⟨g0, hg0, rfl⟩ := List.mem_map.mp hcm
        exact ⟨enc_lt_len _ (hgl g0 hg0), dec_enc_ne _ (hgl g0 hg0)⟩
      rw [hcs, decGo_append _ _ _ _ _ _ _ hprim, hD]
      show decGo retD remD stageD (11 * l.length % 8) [ENC_TABLE g] = Except.ok (some (b, 0, 0))
      rw [decGo_last_primary _ _ _ _ _ (enc_lt_len g hgg) (dec_enc_ne g hgg)]
      have hres0 : (11 * l.length % 8 + 11) % 8 = 0 := by omega
      rw [hres0, dec_enc g hgg, Nat.shiftRight_zero]
      have hfin : flush retD ((stageD <<< (11 - 0)) % 2 ^ 32 ||| g) (remD + (11 - 0))
          = (b, 0, 0) := by
        apply decode_finish b retD remD stageD (11 - 0) g hDret hDstage
          (by norm_num; omega) (by omega) (by omega) (by omega) hb
        rw [hDval]
        have hgc : groupsVal (l ++ [g]) = groupsVal l * 2 ^ 11 + g := groupsVal_concat l g
        simp only [pow_zero, Nat.mul_one, Nat.add_zero] at hval
        rw [← hval, hgc]
      rw [hfin]
  · rcases Nat.lt_or_ge remaining 4 with h3 | h4
    · -- tail character case: 1 ≤ remaining ≤ 3
      obtain ⟨henc, hidx⟩ := hc13 h1 (by omega)
      have hcs : encode b = (List.map ENC_TABLE gs)
          ++ [48 + (stage * 2 ^ (3 - remaining) + (2 ^ (3 - remaining) - 1))] := by
        rw [henc, tail_getD _ hidx]
      obtain ⟨retD, remD, stageD, hD, hDr, hDret, hDstage, hDlen, hDval⟩ := decNormal_inv gs hg
      have hprim : ∀ c ∈ List.map ENC_TABLE gs, c < DEC_TABLE_LEN ∧ DEC_TABLE c ≠ 0xFFFF := by
        intro c hcm
        obtain ⟨g0, hg0, rfl⟩ := List.mem_map.mp hcm
        exact ⟨enc_lt_len _ (hg g0 hg0), dec_enc_ne _ (hg g0 hg0)⟩
      have hremD : remD = 8 - remaining := by omega
      have hpad : (TAIL_BITS + 2 ^ 32 - (8 - remD)) % 2 ^ 32 = 3 - remaining := by
        unfold TAIL_BITS
        omega
      rw [hcs, decGo_append _ _ _ _ _ _ _ hprim, hD]
      show decGo retD remD stageD (11 * gs.length % 8)
          [48 + (stage * 2 ^ (3 - remaining) + (2 ^ (3 - remaining) - 1))]
          = Except.ok (some (b, 0, 0))
      rw [decGo_last_tail _ _ _ _ _ hidx
        (by rw [hpad]; exact trailingOnes_padded _ _ (by omega)), hpad, shiftRight_unpad]
      have h8r : 8 - remD = remaining := by omega
      rw [h8r]
      have hfin : flush retD ((stageD <<< remaining) % 2 ^ 32 ||| stage) (remD + remaining)
          = (b, 0, 0) := by
        apply decode_finish b retD remD stageD remaining stage hDret hDstage hstage
          (by omega) (by omega) (by omega) hb
        rw [hDval, hval]
      rw [hfin]
    · -- final primary character case: 4 ≤ remaining ≤ 10
      obtain ⟨henc, hidx⟩ := hc4 h4
      obtain ⟨retD, remD, stageD, hD, hDr, hDret, hDstage, hDlen, hDval⟩ := decNormal_inv gs hg
      have hprim : ∀ c ∈ List.map ENC_TABLE gs, c < DEC_TABLE_LEN ∧ DEC_TABLE c ≠ 0xFFFF := by
        intro c hcm
        obtain ⟨g0, hg0, rfl⟩ := List.mem_map.mp hcm
        exact ⟨enc_lt_len _ (hg g0 hg0), dec_enc_ne _ (hg g0 hg0)⟩
      rw [henc, decGo_append _ _ _ _ _ _ _ hprim, hD]
      show decGo retD remD stageD (11 * gs.length % 8)
          [ENC_TABLE (stage * 2 ^ (11 - remaining) + (2 ^ (11 - remaining) - 1))]
          = Except.ok (some (b, 0, 0))
      rw [decGo_last_primary _ _ _ _ _ (enc_lt_len _ hidx) (dec_enc_ne _ hidx)]
      have hres : (11 * gs.length % 8 + 11) % 8 = 11 - remaining := by omega
      rw [hres, dec_enc _ hidx, shiftRight_unpad]
      have hn : 11 - (11 - remaining) = remaining := by omega
      rw [hn]
      have hfin : flush retD ((stageD <<< remaining) % 2 ^ 32 ||| stage) (remD + remaining)
          = (b, 0, 0) := by
        apply decode_finish b retD remD stageD remaining stage hDret hDstage hstage
          (by omega) (by omega) (by omega) hb
        rw [hDval, hval]
      rw [hfin]

/-! ### The decoder loop always ends byte-aligned -/

theorem decGo_nonempty_remaining (s : List Nat) : ∀ ret remaining stage residue r rm st,
    s ≠ [] → remaining = residue → remaining < 8 →
    decGo ret remaining stage residue s = .ok (some (r, rm, st)) → rm = 0 := by
  induction s with
  | nil =>
    intro ret remaining stage residue r rm st hne _ _ _
    exact absurd rfl hne
  | cons c rest ih =>
    intro ret remaining stage residue r rm st _ hinv hlt hgo
    by_cases hc : c < DEC_TABLE_LEN
    · by_cases hsent : DEC_TABLE c = 0xFFFF
      · cases rest with
        | nil =>
          rcases hfi : List.findIdx? (fun t => t == c) TAIL with _ | index
          · simp only [decGo, if_pos hc, if_pos hsent, List.isEmpty_nil, if_true, hfi] at hgo
            simp at hgo
          · simp only [decGo, if_pos hc, if_pos hsent, List.isEmpty_nil, if_true, hfi] at hgo
            by_cases hguard : trailingOnes index ≥
                (TAIL_BITS + 2 ^ 32 - (8 - remaining)) % 2 ^ 32
            · rw [if_pos hguard] at hgo
              simp only [decGo, Except.ok.injEq, Option.some.injEq, Prod.mk.injEq] at hgo
              have hfr := flush_remaining (remaining + (8 - remaining)) ret
                ((stage <<< (8 - remaining)) % 2 ^ 32
                  ||| index >>> ((TAIL_BITS + 2 ^ 32 - (8 - remaining)) % 2 ^ 32))
              omega
            · rw [if_neg hguard] at hgo
              simp at hgo
        | cons d ds =>
          simp only [decGo, if_pos hc, if_pos hsent, List.isEmpty_cons, if_false] at hgo
          simp at hgo
      · cases rest with
        | nil =>
          simp only [decGo, if_pos hc, if_neg hsent, List.isEmpty_nil, if_true,
            Except.ok.injEq, Option.some.injEq, Prod.mk.injEq] at hgo
          have hfr := flush_remaining (remaining + (11 - (residue + 11) % 8)) ret
            ((stage <<< (11 - (residue + 11) % 8)) % 2 ^ 32
              ||| DEC_TABLE c >>> ((residue + 11) % 8))
          subst hinv
          omega
        | cons d ds =>
          simp only [decGo, if_pos hc, if_neg hsent, List.isEmpty_cons, if_false] at hgo
          have hfr := flush_remaining (remaining + 11) ret
            ((stage <<< 11) % 2 ^ 32 ||| DEC_TABLE c)
          exact ih _ _ _ _ _ _ _ (by simp) (by rw [hfr]; omega) (by rw [hfr]; omega) hgo
    · simp only [decGo, if_neg hc] at hgo
      exact absurd hgo (by simp)

/-! ### Claim theorems -/

/-- C1.  For every finite byte sequence `b`, `decode (encode b) = Some b`: the decoder
applied to the encoder output returns exactly the original byte sequence wrapped in the
success variant (with the tables modelled from the spec, see `ENC_TABLE`). -/
theorem encode_decode_roundtrip (b : List Nat) (hb : ∀ x ∈ b, x < 256) :
    decode (encode b) = .ok (some b) := by
  unfold decode
  rw [decGo_encode b hb]
  rfl

/-- Witness for C1 at the byte sequence from the repository's own test vector list. -/
theorem encode_decode_roundtrip_witness :
    decode (encode [216, 110, 27, 35, 23, 49, 153, 7, 161, 234, 63])
      = .ok (some [216, 110, 27, 35, 23, 49, 153, 7, 161, 234, 63]) :=
  encode_decode_roundtrip [216, 110, 27, 35, 23, 49, 153, 7, 161, 234, 63] (by decide)

/-- C2.  The claim says `decode` never raises a fatal error on any input string, but
`DEC_TABLE[c as usize]` panics (out-of-bounds slice index) for any character whose code
point is at least `DEC_TABLE_LEN = 4182`: decoding the one-character string `"€"`
(U+20AC, code point 8364) evaluates to the panic, not to `None`. -/
theorem decode_panics_on_large_codepoint : decode [8364] = .error () := rfl

/-- C5.  Whenever the per-symbol loop of `decode` completes without returning `None`
(and without panicking), its `remaining` count is exactly 0, so the post-loop branch
that would append a final partial byte never fires and `decode` returns the loop's
`ret` unchanged. -/
theorem decode_loop_ends_aligned (s ret : List Nat) (rm st : Nat)
    (hgo : decGo [] 0 0 0 s = .ok (some (ret, rm, st))) :
    rm = 0 ∧ decode s = .ok (some ret) := by
  have hrm : rm = 0 := by
    cases s with
    | nil =>
      simp only [decGo, Except.ok.injEq, Option.some.injEq, Prod.mk.injEq] at hgo
      omega
    | cons c rest =>
      exact decGo_nonempty_remaining (c :: rest) _ _ _ _ _ _ _ (by simp) rfl (by omega) hgo
  refine ⟨hrm, ?_⟩
  subst hrm
  unfold decode
  rw [hgo]
  rfl

/-- Witness for C5 at the one-character string `[ENC_TABLE 0]`. -/
theorem decode_loop_ends_aligned_witness :
    (0 : Nat) = 0 ∧ decode [256] = .ok (some [0]) :=
  decode_loop_ends_aligned [256] [0] 0 0 rfl

/-- C3, counterexample.  The claim says `encode [0]` is a single character drawn from
the tail alphabet; it is a single character, but a primary-alphabet one
(`ENC_TABLE 7`), because the leftover after the byte loop is 8 bits, which exceeds
`TAIL_BITS`. -/
theorem encode_zero_claim_false :
    ¬ ((encode [0]).length = 1 ∧ (∀ c ∈ encode [0], c ∈ TAIL)
      ∧ decode (encode [0]) = .ok (some [0])) := by
  intro h
  exact absurd h.2.1 (by decide)

/-- C3, amended.  `encode [0]` produces exactly one character; that character is the
primary-alphabet entry `ENC_TABLE 7` (leftover 8 bits, `> TAIL_BITS`, padded with three
one bits), not a tail character; and decoding it returns `[0]`. -/
theorem encode_zero_primary :
    (encode [0]).length = 1 ∧ encode [0] = [ENC_TABLE 7]
      ∧ (∀ c ∈ encode [0], c ∉ TAIL) ∧ decode (encode [0]) = .ok (some [0]) :=
  ⟨by decide, by decide, by decide, rfl⟩

/-- C6.  `encode b` consists of exactly `⌈8 |b| / 11⌉` characters; the tail symbol,
when used, replaces the final symbol instead of adding one. -/
theorem encode_length (b : List Nat) (hb : ∀ x ∈ b, x < 256) :
    (encode b).length = (8 * b.length + 10) / 11 := by
  obtain ⟨gs, stage, remaining, heq, hg, hrem, hstage, hlen, hval, hc0, hc13, hc4⟩ :=
    encode_cases b hb
  rcases Nat.lt_or_ge remaining 1 with h0 | h1
  · have hr0 : remaining = 0 := by omega
    rw [hc0 hr0, List.length_map]
    omega
  · rcases Nat.lt_or_ge remaining 4 with h3 | h4
    · obtain ⟨henc, _⟩ := hc13 h1 (by omega)
      rw [henc]
      simp only [List.length_append, List.length_map, List.length_cons, List.length_nil]
      omega
    · obtain ⟨henc, _⟩ := hc4 h4
      rw [henc]
      simp only [List.length_append, List.length_map, List.length_cons, List.length_nil]
      omega

/-- Witness for C6 at the byte sequence `[5]`. -/
theorem encode_length_witness : (encode [5]).length = (8 * List.length [5] + 10) / 11 :=
  encode_length [5] (by decide)

/-- C7.  With `r = 8 |b| mod 11`: every non-final character of `encode b` is a
primary-alphabet character; if `r = 0` the final character (when present) is primary;
if `1 ≤ r ≤ 3` the final character is a tail character; if `4 ≤ r ≤ 10` the final
character is primary. -/
theorem encode_output_alphabet (b : List Nat) (hb : ∀ x ∈ b, x < 256) :
    (∀ c ∈ (encode b).dropLast, ∃ i, i < 2048 ∧ ENC_TABLE i = c) ∧
    (∀ c, (encode b).getLast? = some c →
      (8 * b.length % 11 = 0 → ∃ i, i < 2048 ∧ ENC_TABLE i = c) ∧
      (1 ≤ 8 * b.length % 11 → 8 * b.length % 11 ≤ 3 → c ∈ TAIL) ∧
      (4 ≤ 8 * b.length % 11 → ∃ i, i < 2048 ∧ ENC_TABLE i = c)) := by
  obtain ⟨gs, stage, remaining, heq, hg, hrem, hstage, hlen, hval, hc0, hc13, hc4⟩ :=
    encode_cases b hb
  have hr : 8 * b.length % 11 = remaining := by omega
  have hmap : ∀ c ∈ List.map ENC_TABLE gs, ∃ i, i < 2048 ∧ ENC_TABLE i = c := by
    intro c hcm
    obtain ⟨g0, hg0, rfl⟩ := List.mem_map.mp hcm
    exact ⟨g0, hg g0 hg0, rfl⟩
  rcases Nat.lt_or_ge remaining 1 with h0 | h1
  · have hr0 : remaining = 0 := by omega
    rw [hc0 hr0]
    refine ⟨fun c hc => hmap c (List.dropLast_subset _ hc), fun c hcl => ?_⟩
    have hcm := hmap c (List.mem_of_getLast?_eq_some hcl)
    refine ⟨fun _ => hcm, fun ha _ => ?_, fun ha => ?_⟩
    · exfalso
      omega
    · exfalso
      omega
  · rcases Nat.lt_or_ge remaining 4 with h3 | h4
    · obtain ⟨henc, hidx⟩ := hc13 h1 (by omega)
      rw [henc, tail_getD _ hidx]
      constructor
      · intro c hc
        rw [List.dropLast_concat] at hc
        exact hmap c hc
      · intro c hcl
        rw [List.getLast?_concat] at hcl
        have hcc : 48 + (stage * 2 ^ (3 - remaining) + (2 ^ (3 - remaining) - 1)) = c := by
          injection hcl
        subst hcc
        refine ⟨fun h => ?_, fun _ _ => ?_, fun h => ?_⟩
        · exfalso
          omega
        · have hidx8 : stage * 2 ^ (3 - remaining) + (2 ^ (3 - remaining) - 1) < 8 := hidx
          unfold TAIL
          simp only [List.mem_cons, List.not_mem_nil, or_false]
          omega
        · exfalso
          omega
    · obtain ⟨henc, hidx⟩ := hc4 h4
      rw [henc]
      constructor
      · intro c hc
        rw [List.dropLast_concat] at hc
        exact hmap c hc
      · intro c hcl
        rw [List.getLast?_concat] at hcl
        have hcc : ENC_TABLE (stage * 2 ^ (11 - remaining) + (2 ^ (11 - remaining) - 1)) = c := by
          injection hcl
        subst hcc
        refine ⟨fun h => ?_, fun ha hb2 => ?_, fun h => ?_⟩
        · exfalso
          omega
        · exfalso
          omega
        · exact ⟨_, hidx, rfl⟩

/-- Witness for C7 at the byte sequence `[0]` (here `r = 8`). -/
theorem encode_output_alphabet_witness :
    (∀ c ∈ (encode [0]).dropLast, ∃ i, i < 2048 ∧ ENC_TABLE i = c) ∧
    (∀ c, (encode [0]).getLast? = some c →
      (8 * List.length [0] % 11 = 0 → ∃ i, i < 2048 ∧ ENC_TABLE i = c) ∧
      (1 ≤ 8 * List.length [0] % 11 → 8 * List.length [0] % 11 ≤ 3 → c ∈ TAIL) ∧
      (4 ≤ 8 * List.length [0] % 11 → ∃ i, i < 2048 ∧ ENC_TABLE i = c)) :=
  encode_output_alphabet [0] (by decide)

/-- C8.  When the byte loop ends with `remaining` leftover bits of value `stage`:
for `1 ≤ remaining ≤ TAIL_BITS` the final character is the tail entry at index
`(stage <<  (TAIL_BITS - remaining)) | (2 ^ (TAIL_BITS - remaining) - 1)` (pad bits all
ones), and for `remaining > TAIL_BITS` it is the primary entry at
`(stage << (BITS_PER_CHAR - remaining)) | (2 ^ (BITS_PER_CHAR - remaining) - 1)`. -/
theorem encode_final_padding (b : List Nat) (hb : ∀ x ∈ b, x < 256)
    (ret : List Nat) (stage remaining : Nat) (heq : encLoop b = (ret, stage, remaining)) :
    (1 ≤ remaining → remaining ≤ TAIL_BITS →
      encode b = ret ++ [TAIL.getD (stage * 2 ^ (TAIL_BITS - remaining)
        + (2 ^ (TAIL_BITS - remaining) - 1)) 0]) ∧
    (TAIL_BITS < remaining →
      encode b = ret ++ [ENC_TABLE (stage * 2 ^ (BITS_PER_CHAR - remaining)
        + (2 ^ (BITS_PER_CHAR - remaining) - 1))]) := by
  obtain ⟨gs, stage2, remaining2, heq2, hg, hrem, hstage, hlen, hval, hc0, hc13, hc4⟩ :=
    encode_cases b hb
  rw [heq] at heq2
  obtain ⟨hr1, hr2, hr3⟩ : ret = List.map ENC_TABLE gs ∧ stage = stage2
      ∧ remaining = remaining2 := by
    simpa using heq2
  subst hr1
  subst hr2
  subst hr3
  constructor
  · intro ha hb2
    simp only [TAIL_BITS] at hb2 ⊢
    exact (hc13 ha hb2).1
  · intro ha
    simp only [TAIL_BITS] at ha
    simp only [TAIL_BITS, BITS_PER_CHAR]
    exact (hc4 (by omega)).1

/-- Witness for C8 at the byte sequence `[0]`, whose byte loop ends in state
`([], 0, 8)`. -/
theorem encode_final_padding_witness :
    (1 ≤ 8 → 8 ≤ TAIL_BITS →
      encode [0] = [] ++ [TAIL.getD (0 * 2 ^ (TAIL_BITS - 8) + (2 ^ (TAIL_BITS - 8) - 1)) 0]) ∧
    (TAIL_BITS < 8 →
      encode [0] = [] ++ [ENC_TABLE (0 * 2 ^ (BITS_PER_CHAR - 8)
        + (2 ^ (BITS_PER_CHAR - 8) - 1))]) :=
  encode_final_padding [0] (by decide) [] 0 8 (by decide)

/-- C9.  `encode` is total on byte sequences: the checked evaluator `encodeC`, which
fails on any out-of-range table index or any 16-bit overflow, agrees with `encode`;
and the empty input yields the empty string. -/
theorem encode_total_checked (b : List Nat) (hb : ∀ x ∈ b, x < 256) :
    encodeC b = some (encode b) ∧ encode [] = [] :=
  ⟨encodeC_eq b hb, rfl⟩

/-- Witness for C9 at the byte sequence `[255]`. -/
theorem encode_total_checked_witness :
    encodeC [255] = some (encode [255]) ∧ encode [] = [] :=
  encode_total_checked [255] (by decide)

/-- C10.  `decode` accepts non-canonical encodings: `[ENC_TABLE 0]` (a final primary
symbol whose three discarded padding bits are `000`, not the all-ones pattern `encode`
writes) decodes to `[0]`, yet `encode [0]` is `[ENC_TABLE 7]`, a different string. -/
theorem decode_noncanonical : ∃ s bs, decode s = .ok (some bs) ∧ encode bs ≠ s ∧
    ∀ c ∈ s, ∃ i, i < 2048 ∧ ENC_TABLE i = c := by
  refine ⟨[256], [0], rfl, by decide, ?_⟩
  intro c hc
  have hc256 : c = 256 := by simpa using hc
  subst hc256
  exact ⟨0, by omega, rfl⟩

/-! ### Failure conditions of the decoder (C4) -/

/-- Accumulator fill (equally, residue) of the decoder when it reads the final
character of a string of length `m`. -/
def finalRemaining (m : Nat) : Nat := 11 * (m - 1) % 8

/-- Failure condition (1): a character outside the primary alphabet strictly before
the final position. -/
def condPremature (s : List Nat) : Prop :=
  ∃ i, i + 1 < s.length ∧ DEC_TABLE (s.getD i 0) = 0xFFFF

/-- Failure condition (2): the final character is in neither the primary alphabet nor
the tail alphabet. -/
def condUnknownLast (s : List Nat) : Prop :=
  ∃ c, s.getLast? = some c ∧ DEC_TABLE c = 0xFFFF ∧ c ∉ TAIL

/-- Failure condition (3) exactly as the claim words it: the final character is a tail
character whose low `padding` bits are not all ones, where
`padding = TAIL_BITS - need` and `need` is the number of bits still needed to complete
the final byte (natural-number subtraction; for `need > TAIL_BITS` the claim's formula
gives padding 0 and hence no failure). -/
def condTailClaim (s : List Nat) : Prop :=
  ∃ c index, s.getLast? = some c ∧ List.findIdx? (fun t => t == c) TAIL = some index ∧
    index &&& (2 ^ (TAIL_BITS - (8 - finalRemaining s.length)) - 1)
      ≠ 2 ^ (TAIL_BITS - (8 - finalRemaining s.length)) - 1

/-- Failure condition (3) as the code implements it (the amended condition): the final
character is a tail character and either more than `TAIL_BITS` bits are still needed to
complete the final byte (the wrapped `u32` padding then exceeds any trailing-ones
count), or the trailing-ones count of its index is below the padding width. -/
def condTailBad (s : List Nat) : Prop :=
  ∃ c index, s.getLast? = some c ∧ List.findIdx? (fun t => t == c) TAIL = some index ∧
    (TAIL_BITS < 8 - finalRemaining s.length ∨
      trailingOnes index < TAIL_BITS - (8 - finalRemaining s.length))

theorem tail_trailingOnes_le : ∀ i < 8, trailingOnes i ≤ 3 := by decide

theorem tail_findIdx_none (c : Nat) (hcm : c ∉ TAIL) :
    List.findIdx? (fun t => t == c) TAIL = none := by
  rw [List.findIdx?_eq_none_iff]
  intro x hx
  show (x == c) = false
  rw [beq_eq_false_iff_ne]
  intro hxc
  exact hcm (hxc ▸ hx)

theorem tail_findIdx_some (c index : Nat)
    (h : List.findIdx? (fun t => t == c) TAIL = some index) : index < 8 ∧ c = 48 + index := by
  by_cases hcm : c ∈ TAIL
  · obtain ⟨i, hi, rfl⟩ : ∃ i, i < 8 ∧ c = 48 + i := by
      simp only [TAIL, List.mem_cons, List.not_mem_nil, or_false] at hcm
      exact ⟨c - 48, by omega, by omega⟩
    rw [tail_findIdx i hi] at h
    have hii : i = index := by
      injection h
    omega
  · rw [tail_findIdx_none c hcm] at h
    cases h

/-- The code's wrapped tail guard fails exactly when the amended condition (3) holds. -/
theorem tail_guard_not_iff (index remaining : Nat) (hidx : index < 8) (hrem : remaining < 8) :
    (¬ trailingOnes index ≥ (TAIL_BITS + 2 ^ 32 - (8 - remaining)) % 2 ^ 32) ↔
      (TAIL_BITS < 8 - remaining ∨ trailingOnes index < TAIL_BITS - (8 - remaining)) := by
  have hto : trailingOnes index ≤ 3 := tail_trailingOnes_le index hidx
  unfold TAIL_BITS
  by_cases h : 8 - remaining ≤ 3
  · have hw : (3 + 2 ^ 32 - (8 - remaining)) % 2 ^ 32 = 3 - (8 - remaining) := by omega
    rw [hw]
    omega
  · have hw : (3 + 2 ^ 32 - (8 - remaining)) % 2 ^ 32 = 2 ^ 32 - ((8 - remaining) - 3) := by
      omega
    rw [hw]
    omega

theorem decGo_last_unknown (ret : List Nat) (remaining stage residue c : Nat)
    (hc : c < DEC_TABLE_LEN) (hsent : DEC_TABLE c = 0xFFFF)
    (hfi : List.findIdx? (fun t => t == c) TAIL = none) :
    decGo ret remaining stage residue [c] = .ok none := by
  simp only [decGo, if_pos hc, if_pos hsent, List.isEmpty_nil, if_true, hfi]

theorem decGo_last_tail_reject (ret : List Nat) (remaining stage residue i : Nat) (hi : i < 8)
    (hguard : ¬ trailingOnes i ≥ (TAIL_BITS + 2 ^ 32 - (8 - remaining)) % 2 ^ 32) :
    decGo ret remaining stage residue [48 + i] = .ok none := by
  have hlt := tail_lt_len i hi
  have hsent := tail_dec_sentinel i hi
  have hfind := tail_findIdx i hi
  simp only [decGo, if_pos hlt, hsent, List.isEmpty_nil, if_true, hfind]
  rw [if_neg hguard]

theorem decGo_sentinel_mid (ret : List Nat) (remaining stage residue c d : Nat) (ds : List Nat)
    (hc : c < DEC_TABLE_LEN) (hsent : DEC_TABLE c = 0xFFFF) :
    decGo ret remaining stage residue (c :: d :: ds) = .ok none := by
  simp only [decGo, if_pos hc, if_pos hsent, List.isEmpty_cons]
  rw [if_neg (by simp)]

/-- Shifting the failure conditions across a leading primary character. -/
theorem cond_shift (c d : Nat) (ds : List Nat) (hsent : DEC_TABLE c ≠ 0xFFFF) (N : Nat) :
    ((∃ i, i + 1 < (d :: ds).length ∧ DEC_TABLE ((d :: ds).getD i 0) = 0xFFFF) ∨
     (∃ c2, (d :: ds).getLast? = some c2 ∧ DEC_TABLE c2 = 0xFFFF ∧
       (c2 ∉ TAIL ∨ ∃ index, List.findIdx? (fun t => t == c2) TAIL = some index ∧
         (TAIL_BITS < 8 - N ∨ trailingOnes index < TAIL_BITS - (8 - N)))))
    ↔
    ((∃ i, i + 1 < (c :: d :: ds).length ∧ DEC_TABLE ((c :: d :: ds).getD i 0) = 0xFFFF) ∨
     (∃ c2, (c :: d :: ds).getLast? = some c2 ∧ DEC_TABLE c2 = 0xFFFF ∧
       (c2 ∉ TAIL ∨ ∃ index, List.findIdx? (fun t => t == c2) TAIL = some index ∧
         (TAIL_BITS < 8 - N ∨ trailingOnes index < TAIL_BITS - (8 - N))))) := by
  rw [List.getLast?_cons_cons]
  constructor
  · rintro (⟨i, hi, hd⟩ | hr)
    · refine Or.inl ⟨i + 1, ?_, hd⟩
      simp only [List.length_cons] at hi ⊢
      omega
    · exact Or.inr hr
  · rintro (⟨i, hi, hd⟩ | hr)
    · cases i with
      | zero => exact absurd hd hsent
      | succ j =>
        refine Or.inl ⟨j, ?_, hd⟩
        simp only [List.length_cons] at hi ⊢
        omega
    · exact Or.inr hr

/-- Characterization of `decGo` returning `None`, by induction along the string.
`k` is the number of characters already consumed; both `remaining` and `residue`
equal `11 k mod 8` at every loop head. -/
theorem decGo_none_aux (s : List Nat) : ∀ k ret stage,
    (∀ c ∈ s, c < DEC_TABLE_LEN) → s ≠ [] →
    ((decGo ret (11 * k % 8) stage (11 * k % 8) s = .ok none ↔
      ((∃ i, i + 1 < s.length ∧ DEC_TABLE (s.getD i 0) = 0xFFFF) ∨
       (∃ c, s.getLast? = some c ∧ DEC_TABLE c = 0xFFFF ∧
         (c ∉ TAIL ∨ ∃ index, List.findIdx? (fun t => t == c) TAIL = some index ∧
           (TAIL_BITS < 8 - 11 * (k + s.length - 1) % 8 ∨
             trailingOnes index < TAIL_BITS - (8 - 11 * (k + s.length - 1) % 8)))))) ∧
     (decGo ret (11 * k % 8) stage (11 * k % 8) s = .ok none
       ∨ ∃ st, decGo ret (11 * k % 8) stage (11 * k % 8) s = .ok (some st))) := by
  induction s with
  | nil =>
    intro k ret stage _ hne
    exact absurd rfl hne
  | cons c rest ih =>
    intro k ret stage hcl _
    have hc : c < DEC_TABLE_LEN := hcl c (by simp)
    cases rest with
    | nil =>
      have hpos : k + (c :: ([] : List Nat)).length - 1 = k := by simp
      rw [hpos]
      by_cases hsent : DEC_TABLE c = 0xFFFF
      · rcases hfi : List.findIdx? (fun t => t == c) TAIL with _ | index
        · have hnm : c ∉ TAIL := by
            intro hcm
            rw [List.findIdx?_eq_none_iff] at hfi
            have hpc := hfi c hcm
            simp at hpc
          rw [decGo_last_unknown _ _ _ _ _ hc hsent hfi]
          exact ⟨⟨fun _ => Or.inr ⟨c, by simp, hsent, Or.inl hnm⟩, fun _ => rfl⟩, Or.inl rfl⟩
        · obtain ⟨hidx8, rfl⟩ := tail_findIdx_some c index hfi
          by_cases hguard : trailingOnes index ≥
              (TAIL_BITS + 2 ^ 32 - (8 - 11 * k % 8)) % 2 ^ 32
          · rw [decGo_last_tail _ _ _ _ _ hidx8 hguard]
            refine ⟨⟨fun habs => ?_, fun hr => ?_⟩, Or.inr ⟨_, rfl⟩⟩
            · simp at habs
            · exfalso
              rcases hr with ⟨i, hi, _⟩ | ⟨c2, hgl, hs2, hbad⟩
              · simp only [List.length_cons, List.length_nil] at hi
                omega
              · have hgl2 : some (48 + index) = some c2 := hgl
                have hc2 : 48 + index = c2 := by injection hgl2
                subst hc2
                rcases hbad with hmem | ⟨index2, hfi2, hcond⟩
                · refine hmem ?_
                  simp only [TAIL, List.mem_cons, List.not_mem_nil, or_false]
                  omega
                · rw [tail_findIdx index hidx8] at hfi2
                  have hi2 : index = index2 := by injection hfi2
                  subst hi2
                  exact ((tail_guard_not_iff index (11 * k % 8) hidx8 (by omega)).mpr
                    hcond) hguard
          · rw [decGo_last_tail_reject _ _ _ _ _ hidx8 hguard]
            exact ⟨⟨fun _ => Or.inr ⟨48 + index, by simp, tail_dec_sentinel index hidx8,
              Or.inr ⟨index, tail_findIdx index hidx8,
                (tail_guard_not_iff index (11 * k % 8) hidx8 (by omega)).mp hguard⟩⟩,
              fun _ => rfl⟩, Or.inl rfl⟩
      · rw [decGo_last_primary _ _ _ _ _ hc hsent]
        refine ⟨⟨fun habs => ?_, fun hr => ?_⟩, Or.inr ⟨_, rfl⟩⟩
        · simp at habs
        · exfalso
          rcases hr with ⟨i, hi, _⟩ | ⟨c2, hgl, hs2, _⟩
          · simp only [List.length_cons, List.length_nil] at hi
            omega
          · have hgl2 : some c = some c2 := hgl
            have hc2 : c = c2 := by injection hgl2
            exact hsent (hc2 ▸ hs2)
    | cons d ds =>
      by_cases hsent : DEC_TABLE c = 0xFFFF
      · rw [decGo_sentinel_mid _ _ _ _ _ _ _ hc hsent]
        refine ⟨⟨fun _ => Or.inl ⟨0, ?_, hsent⟩, fun _ => rfl⟩, Or.inl rfl⟩
        simp only [List.length_cons]
        omega
      · have hne : (d :: ds).isEmpty = false := rfl
        rw [decGo_cons_primary c (d :: ds) hne hc hsent]
        simp only [decNStep]
        have hfr : (flush ret ((stage <<< 11) % 2 ^ 32 ||| DEC_TABLE c) (11 * k % 8 + 11)).2.2
            = 11 * (k + 1) % 8 := by
          rw [flush_remaining]
          omega
        have hres : (11 * k % 8 + 11) % 8 = 11 * (k + 1) % 8 := by omega
        rw [hfr, hres]
        have hsub := ih (k + 1)
          (flush ret ((stage <<< 11) % 2 ^ 32 ||| DEC_TABLE c) (11 * k % 8 + 11)).1
          (flush ret ((stage <<< 11) % 2 ^ 32 ||| DEC_TABLE c) (11 * k % 8 + 11)).2.1
          (fun x hx => hcl x (by simp [hx])) (by simp)
        have hN : 11 * (k + 1 + (d :: ds).length - 1) % 8
            = 11 * (k + (c :: d :: ds).length - 1) % 8 := by
          simp only [List.length_cons]
          omega
        rw [hN] at hsub
        exact ⟨hsub.1.trans (cond_shift c d ds hsent _), hsub.2⟩

theorem decode_none_iff_go (s : List Nat) :
    (decode s = .ok none ↔ decGo [] 0 0 0 s = .ok none) ∧
    (∀ st, decGo [] 0 0 0 s = .ok (some st) → ∃ bs, decode s = .ok (some bs)) := by
  constructor
  · unfold decode
    rcases h : decGo [] 0 0 0 s with e | o
    · simp [Except.map]
    · rcases o with _ | st
      · simp [Except.map]
      · simp [Except.map]
  · intro st h
    unfold decode
    rw [h]
    exact ⟨_, rfl⟩

/-- C4, counterexample.  `decode "0"` (the single tail character `'0'`) returns `None`,
although none of the claim's three failure conditions holds for it: the character is in
the tail alphabet and in final position, and the claim's padding
`TAIL_BITS - need = 3 - 8` (a negative quantity, 0 as a natural number) makes "low
padding bits not all ones" false.  The code rejects it because the wrapped `u32`
subtraction produces a huge padding that no trailing-ones count can reach. -/
theorem decode_none_claim_false :
    decode [48] = .ok none
      ∧ ¬ (condPremature [48] ∨ condUnknownLast [48] ∨ condTailClaim [48]) := by
  refine ⟨rfl, ?_⟩
  rintro (⟨i, hi, _⟩ | ⟨c, hgl, _, hnm⟩ | ⟨c, index, hgl, hfi, hbad⟩)
  · simp at hi
  · have hgl2 : some (48 : Nat) = some c := hgl
    have hc : 48 = c := by injection hgl2
    subst hc
    exact hnm (by decide)
  · have hgl2 : some (48 : Nat) = some c := hgl
    have hc : 48 = c := by injection hgl2
    subst hc
    have h48 : List.findIdx? (fun t => t == (48 : Nat)) TAIL = some 0 := by decide
    rw [h48] at hfi
    have hidx : 0 = index := by injection hfi
    subst hidx
    exact hbad (by decide)

/-- C4, amended.  For every string whose characters all lie inside the reverse table
(code points `< 4182`, so the decode does not panic), `decode` returns `None` exactly
when (1) a character outside the primary alphabet appears before the final position,
(2) the final character is in neither alphabet, or (3') the final character is a tail
character that either needs more than `TAIL_BITS` bits to complete the final byte or
whose low padding bits are not all ones; on every other such string — including the
empty one — it returns `Some` of a byte sequence. -/
theorem decode_none_iff (s : List Nat) (hs : ∀ c ∈ s, c < DEC_TABLE_LEN) :
    (decode s = .ok none ↔ condPremature s ∨ condUnknownLast s ∨ condTailBad s) ∧
    (decode s = .ok none ∨ ∃ bs, decode s = .ok (some bs)) := by
  cases s with
  | nil =>
    constructor
    · constructor
      · intro habs
        have hd : decode ([] : List Nat) = .ok (some []) := rfl
        rw [hd] at habs
        simp at habs
      · rintro (⟨i, hi, _⟩ | ⟨c, hgl, _⟩ | ⟨c, index, hgl, _⟩)
        · simp at hi
        · simp at hgl
        · simp at hgl
    · right
      exact ⟨[], rfl⟩
  | cons c rest =>
    obtain ⟨hiff, htot⟩ := decGo_none_aux (c :: rest) 0 [] 0 hs (by simp)
    obtain ⟨hgo_iff, hgo_tot⟩ := decode_none_iff_go (c :: rest)
    have hpos : 11 * (0 + (c :: rest).length - 1) % 8 = finalRemaining (c :: rest).length := by
      unfold finalRemaining
      omega
    rw [hpos] at hiff
    constructor
    · rw [hgo_iff]
      refine (show decGo [] 0 0 0 (c :: rest) = .ok none ↔ _ from hiff).trans ?_
      simp only [condPremature, condUnknownLast, condTailBad]
      constructor
      · rintro (h1 | ⟨c2, hgl, hs2, hnm | ⟨index, hfi, hcond⟩⟩)
        · exact Or.inl h1
        · exact Or.inr (Or.inl ⟨c2, hgl, hs2, hnm⟩)
        · exact Or.inr (Or.inr ⟨c2, index, hgl, hfi, hcond⟩)
      · rintro (h1 | ⟨c2, hgl, hs2, hnm⟩ | ⟨c2, index, hgl, hfi, hcond⟩)
        · exact Or.inl h1
        · exact Or.inr ⟨c2, hgl, hs2, Or.inl hnm⟩
        · obtain ⟨hidx8, rfl⟩ := tail_findIdx_some c2 index hfi
          exact Or.inr ⟨48 + index, hgl, tail_dec_sentinel index hidx8,
            Or.inr ⟨index, hfi, hcond⟩⟩
    · rcases htot with hnone | ⟨st, hsome⟩
      · left
        rw [hgo_iff]
        exact hnone
      · right
        exact hgo_tot st hsome

/-- Witness for C4 (amended) at the one-character string `[ENC_TABLE 0]`. -/
theorem decode_none_iff_witness :
    (decode [256] = .ok none
      ↔ condPremature [256] ∨ condUnknownLast [256] ∨ condTailBad [256]) ∧
    (decode [256] = .ok none ∨ ∃ bs, decode [256] = .ok (some bs)) :=
  decode_none_iff [256] (by decide)

end Base2048
